import Mathlib

/-!
# DoDo backend: habit recurrence, streak and progression engine

A shallow embedding of the habit recurrence / streak engine
(`backend/app/routes/habits.py`) and of the experience progression layer
(`backend/app/progression.py`), together with proofs about it.

Modelling conventions:
* Calendar days are proleptic Gregorian ordinals (`Int`), the representation
  underlying Python `datetime.date.toordinal`: day 1 is 0001-01-01, a Monday,
  so the application's Sunday-first weekday index of a day `d` is `d % 7`.
* Timestamps are whole seconds (`Int`); the sub-second part discarded by
  `int(...total_seconds())` is not modelled.
* Python floats in the XP formulas are modelled with exact rationals and
  Python's banker's rounding (`round_half_even`).  The scalings by `0.25`
  (exact in binary) match the floats exactly; `1.35 ** n` and `0.35 * p`
  are exact-rational approximations of the float expressions.
* Database tables are in-memory lists/finsets scoped to one user and one
  habit; `limit(1)` row reads pick the head of the filtered list.
-/

namespace DoDo

/-- The `frequency_type` column (`FrequencyType = Literal["daily", "interval", "custom_days"]`). -/
inductive FrequencyType where
  | daily
  | interval
  | custom_days
deriving Repr, DecidableEq

/-- A row of the `habits` table (the fields the engine reads and writes). -/
structure HabitRow where
  frequency_type : FrequencyType
  interval_days : Option Int
  custom_days : List Int
  anchor_date : Option Int
  time_minute : Option Int
  duration_minutes : Option Int
  current_streak : Int
  best_streak : Int
  last_completed_on : Option Int
  next_occurrence_on : Option Int
deriving Repr, DecidableEq

/-- `_normalize_custom_days`: the weekday indices of the input lying between 0
and 6, deduplicated and sorted (`sorted({int(d) for d in days if 0 <= int(d) <= 6})`). -/
def normalize_custom_days (days : List Int) : List Int :=
  ((List.range 7).map (fun i : Nat => (i : Int))).filter (fun d => days.contains d)

/-- `_weekday_sun_first`: Sunday=0 .. Saturday=6 index of an ordinal day.
Python computes `(value.weekday() + 1) % 7`; on ordinals (day 1 = Monday =
weekday 0) that is `((d - 1) % 7 + 1) % 7 = d % 7`. -/
def weekday_sun_first (day : Int) : Int := day % 7

/-- `_habit_applies_on`: does the habit apply on `day`?  A missing anchor is
replaced by `day` itself; days before the anchor never apply; then the
recurrence kind decides.  `if not interval_days` treats both a missing and a
zero interval as absent. -/
def habit_applies_on (row : HabitRow) (day : Int) : Bool :=
  let anchor := row.anchor_date.getD day
  if day < anchor then false
  else
    match row.frequency_type with
    | .daily => true
    | .interval =>
      match row.interval_days with
      | none => false
      | some n => if n = 0 then false else (day - anchor) % n == 0
    | .custom_days =>
      let cds := normalize_custom_days row.custom_days
      if cds.isEmpty then false else cds.contains (weekday_sun_first day)

/-- The consecutive days `lo, lo+1, ..., lo+n-1`. -/
def dayRange (lo : Int) (n : Nat) : List Int :=
  (List.range n).map (fun i : Nat => lo + (i : Int))

/-- `_first_applicable_on_or_after`: scan `start, start+1, ...` over
`range(max_days + 1)` offsets and return the first applicable day, if any. -/
def first_applicable_on_or_after (row : HabitRow) (start : Int)
    (max_days : Nat := 730) : Option Int :=
  (dayRange start (max_days + 1)).find? (fun target => habit_applies_on row target)

/-! ## The streak reconstruction (`_recalculate_streaks`) -/

/-- The running state of the forward pass: `best`/`run` counters and the most
recent applicable completed day seen so far (`last_applicable_completed`). -/
structure StreakState where
  best : Nat
  run : Nat
  last : Option Int
deriving Repr, DecidableEq

/-- The initial forward-pass state (`best = 0`, `run = 0`, no last day). -/
def initStreak : StreakState := { best := 0, run := 0, last := none }

/-- One iteration of the forward loop of `_recalculate_streaks`: skip
non-applicable days; on an applicable completed day increment the run,
update `best` and record the day; on an applicable missed day reset the run. -/
def forwardStep (p : Int → Bool) (completed : Finset Int)
    (s : StreakState) (day : Int) : StreakState :=
  if p day then
    if day ∈ completed then
      { best := max s.best (s.run + 1), run := s.run + 1, last := some day }
    else
      { s with run := 0 }
  else s

/-- The inner `while cursor >= earliest and not applies(cursor)` loop of the
backward pass: skip backwards over non-applicable days. -/
def skip_gap (p : Int → Bool) (earliest : Int) (cursor : Int) : Int :=
  if h : earliest ≤ cursor ∧ p cursor = false then
    skip_gap p earliest (cursor - 1)
  else cursor
termination_by (cursor + 1 - earliest).toNat
decreasing_by omega

/-- The backward pass of `_recalculate_streaks`: starting at the most recent
applicable completed day, count consecutive applicable completed days,
skipping non-applicable gaps, stopping at the first applicable missed day or
once the cursor passes before `earliest`. -/
def backward_count (p : Int → Bool) (completed : Finset Int)
    (earliest : Int) (cursor : Int) : Nat :=
  if h : earliest ≤ cursor ∧ p cursor = true then
    if cursor ∈ completed then
      backward_count p completed earliest (skip_gap p earliest (cursor - 1)) + 1
    else 0
  else 0
termination_by (cursor + 1 - earliest).toNat
decreasing_by
  have hs : ∀ (k : Nat) (c : Int), (c + 1 - earliest).toNat ≤ k →
      skip_gap p earliest c ≤ c := by
    intro k
    induction k with
    | zero =>
      intro c hk
      unfold skip_gap
      split
      · rename_i hcond
        exact absurd hcond.1 (by omega)
      · exact le_refl c
    | succ k ih =>
      intro c hk
      unfold skip_gap
      split
      · rename_i hcond
        have h2 := ih (c - 1) (by omega)
        omega
      · exact le_refl c
  have := hs ((cursor - 1) + 1 - earliest).toNat (cursor - 1) (le_refl _)
  omega

/-- The derived values recomputed by `_recalculate_streaks`. -/
structure StreakOut where
  current : Nat
  best : Nat
  last_completed : Option Int
deriving Repr, DecidableEq

/-- Number of days in the inclusive range `lo .. hi`. -/
def rangeLen (lo hi : Int) : Nat := (hi + 1 - lo).toNat

/-- `_recalculate_streaks` (the pure recomputation): walk every day from the
earliest completed day to `max(today, latest completed day)` with the forward
pass, then derive `current` by the backward walk from the last applicable
completed day.  An empty completion set yields all-zero/none. -/
def recalculate_streaks (row : HabitRow) (completed : Finset Int)
    (today : Int) : StreakOut :=
  if hne : completed.Nonempty then
    let latest := completed.max' hne
    let evaluation_end := max today latest
    let earliest := completed.min' hne
    let p := habit_applies_on row
    let fwd := (dayRange earliest (rangeLen earliest evaluation_end)).foldl
      (forwardStep p completed) initStreak
    let current := match fwd.last with
      | some lc => backward_count p completed earliest lc
      | none => 0
    { current := current, best := fwd.best, last_completed := fwd.last }
  else { current := 0, best := 0, last_completed := none }

/-! ## Progression (`app/progression.py`) -/

/-- Python `round` (banker's rounding) on a rational. -/
def round_half_even (q : Rat) : Int :=
  let f := ⌊q⌋
  let frac := q - (f : Rat)
  if frac < 1/2 then f
  else if 1/2 < frac then f + 1
  else if f % 2 = 0 then f else f + 1

/-- `xp_needed_for_level`: `max(1, int(round(200 * (1.35 ** (normalized - 1)))))`
with `normalized = max(1, level)`.  The float power `1.35 ** n` is modelled by
the exact rational `(27/20) ^ n`. -/
def xp_needed_for_level (level : Int) : Int :=
  let normalized := max 1 level
  max 1 (round_half_even (200 * (27/20 : Rat) ^ (normalized - 1).toNat))

/-- Each level needs at least one experience point. -/
theorem one_le_xp_needed (level : Int) : 1 ≤ xp_needed_for_level level :=
  le_max_left 1 _

/-- The level loop of `progress_from_experience`: repeatedly subtract the XP
needed for the current level while enough remains.  Returns
`(level, remaining, needed)`. -/
def progress_loop (remaining : Int) (level : Int) : Int × Int × Int :=
  let needed := xp_needed_for_level level
  if needed ≤ remaining then progress_loop (remaining - needed) (level + 1)
  else (level, remaining, needed)
termination_by remaining.toNat
decreasing_by
  have h1 := one_le_xp_needed level
  omega

/-- The progress record returned by `progress_from_experience`. -/
structure ProgressOut where
  experiencePoints : Int
  level : Int
  xpIntoLevel : Int
  xpForNextLevel : Int
  xpToNextLevel : Int
deriving Repr, DecidableEq

/-- `progress_from_experience`: clamp the XP at zero, then split it into a
level and a remainder along the level curve. -/
def progress_from_experience (total_xp : Int) : ProgressOut :=
  let xp := max 0 total_xp
  let res := progress_loop xp 1
  { experiencePoints := xp
    level := res.1
    xpIntoLevel := res.2.1
    xpForNextLevel := res.2.2
    xpToNextLevel := max 0 (res.2.2 - res.2.1) }

/-- `streak_milestone_bonus`: exact-milestone lookup on `max(0, streak)`. -/
def streak_milestone_bonus (streak : Int) : Int :=
  let s := max 0 streak
  if s = 3 then 10
  else if s = 7 then 25
  else if s = 14 then 55
  else if s = 30 then 120
  else 0

/-- `_duration_efficiency_bonus`: stepped bonus from the actual/planned
duration quotient.  The float comparisons are modelled with exact rationals. -/
def duration_efficiency_bonus (planned_minutes actual_minutes : Option Int)
    (habit : Bool) : Int :=
  match planned_minutes with
  | none => 0
  | some p =>
    if p ≤ 0 then 0
    else
      match actual_minutes with
      | none => 0
      | some a =>
        if a ≤ 0 then 0
        else
          let q : Rat := (a : Rat) / (p : Rat)
          if q ≤ 85/100 then (if habit then 18 else 14)
          else if q ≤ 1 then (if habit then 14 else 10)
          else if q ≤ 115/100 then (if habit then 10 else 7)
          else if q ≤ 135/100 then (if habit then 4 else 2)
          else if q ≤ 165/100 then 0
          else (if habit then -8 else -6)

/-- `task_completion_xp`: base 35 plus priority, duration, efficiency,
on-time and streak bonuses, floored at 10. -/
def task_completion_xp (priority : Int) (planned_minutes actual_minutes : Option Int)
    (completed_on_time : Bool) (completion_streak : Int) : Int :=
  let priority_bonus : Int :=
    if priority = 1 then 6 else if priority = 2 then 14 else if priority = 3 then 24 else 10
  let duration_bonus := min 40 (round_half_even ((planned_minutes.getD 0 : Rat) * (25/100)))
  let efficiency_bonus := duration_efficiency_bonus planned_minutes actual_minutes false
  let on_time_bonus : Int := if completed_on_time then 16 else 0
  let streak_bonus := streak_milestone_bonus completion_streak
  max 10 (35 + priority_bonus + duration_bonus + efficiency_bonus + on_time_bonus + streak_bonus)

/-- `habit_completion_xp`: base 55 plus duration, efficiency, on-time, streak
milestone and consistency bonuses, floored at 18. -/
def habit_completion_xp (planned_minutes actual_minutes : Option Int)
    (completed_on_time : Bool) (habit_streak : Int) : Int :=
  let duration_bonus := min 60 (round_half_even ((planned_minutes.getD 0 : Rat) * (35/100)))
  let efficiency_bonus := duration_efficiency_bonus planned_minutes actual_minutes true
  let on_time_bonus : Int := if completed_on_time then 24 else 8
  let streak_bonus := streak_milestone_bonus habit_streak
  let consistency_bonus : Int := min 25 ⌊(max 0 habit_streak : Rat) * (15/10)⌋
  max 18 (55 + duration_bonus + efficiency_bonus + on_time_bonus + streak_bonus + consistency_bonus)

/-- A row of the `profiles` table (both columns nullable in the reads the code
performs: `int(... or 0)`). -/
structure ProfileRow where
  experience_points : Option Int
  current_level : Option Int
deriving Repr, DecidableEq

/-- `apply_experience_delta`: read the profile (a missing row short-circuits
to `progress_from_experience(0)` with no write), clamp `current + delta` at
zero, and write back the derived XP and level.  Returns the new stored row
and the progress record. -/
def apply_experience_delta (profile : Option ProfileRow) (delta : Int) :
    Option ProfileRow × ProgressOut :=
  match profile with
  | none => (none, progress_from_experience 0)
  | some row =>
    let current_xp := row.experience_points.getD 0
    let next_xp := max 0 (current_xp + delta)
    let progress := progress_from_experience next_xp
    (some { experience_points := some progress.experiencePoints,
            current_level := some progress.level }, progress)

/-! ## The completion ledger (`complete_habit` / `uncomplete_habit`) -/

/-- A row of the `habit_completions` table for one habit. -/
structure CompletionRow where
  completed_on : Int
  xp_awarded : Int
deriving Repr, DecidableEq

/-- A row of the `habit_sessions` table for one habit. -/
structure SessionRow where
  id : Nat
  session_date : Int
  started_at : Int
  ended_at : Option Int
  duration_seconds : Int
deriving Repr, DecidableEq

/-- Is this session an open session for `day` (`session_date = day`,
`ended_at IS NULL`)? -/
def is_active_for (day : Int) (s : SessionRow) : Bool :=
  s.session_date == day && s.ended_at == none

/-- Close a session at `now_ts`, adding the elapsed time
(`max(0, int((now - started_at).total_seconds()))`) to its duration. -/
def close_session (s : SessionRow) (now_ts : Int) : SessionRow :=
  { s with ended_at := some now_ts,
           duration_seconds := s.duration_seconds + max 0 (now_ts - s.started_at) }

/-- `_pause_active_habit_session`: close the open session for `day` with the
largest `started_at` (the `order by started_at desc limit 1` pick; ties are
broken by list position), if one exists. -/
def pause_active (sessions : List SessionRow) (day now_ts : Int) : List SessionRow :=
  let chosen := (sessions.filter (is_active_for day)).foldl
    (fun best s => match best with
      | none => some s
      | some b => if b.started_at < s.started_at then some s else some b) none
  match chosen with
  | none => sessions
  | some target => sessions.map (fun s =>
      if s.id == target.id then close_session s now_ts else s)

/-- `_tracked_seconds_for_day`: total recorded duration for `day`, counting
elapsed time of still-open sessions, clamped at zero. -/
def tracked_seconds_for_day (sessions : List SessionRow) (day now_ts : Int) : Int :=
  max 0 ((sessions.filter (fun s => s.session_date == day)).foldl
    (fun total s => total + s.duration_seconds +
      (match s.ended_at with
       | none => max 0 (now_ts - s.started_at)
       | some _ => 0)) 0)

/-- `int(row.get("duration_minutes") or 30)`: a missing or zero planned
duration falls back to 30 minutes. -/
def planned_of (o : Option Int) : Int :=
  match o with
  | some n => if n = 0 then 30 else n
  | none => 30

/-- The per-user database state the habit completion endpoints touch
(one habit, its completions and sessions, and the profile). -/
structure AppState where
  habit : HabitRow
  completions : List CompletionRow
  sessions : List SessionRow
  profile : Option ProfileRow
deriving Repr, DecidableEq

/-- The request clock: today's UTC date, the current timestamp in seconds and
the current minute of the day. -/
structure Clock where
  today : Int
  now_ts : Int
  now_minute : Int
deriving Repr, DecidableEq

/-- The set of completed days recorded in a completions list. -/
def daysOf (completions : List CompletionRow) : Finset Int :=
  (completions.map (fun r => r.completed_on)).toFinset

/-- `_recalculate_streaks` as the endpoint uses it: recompute the derived
fields from the completion rows and write them (together with
`next_occurrence_on = _first_applicable_on_or_after(row, today)`) back into
the habit row. -/
def recalc_habit_row (row : HabitRow) (completions : List CompletionRow)
    (today : Int) : HabitRow :=
  let out := recalculate_streaks row (daysOf completions) today
  { row with
    current_streak := (out.current : Int),
    best_streak := (out.best : Int),
    last_completed_on := out.last_completed,
    next_occurrence_on := first_applicable_on_or_after row today 730 }

/-- The XP computed for a net-new completion inside `complete_habit`:
actual minutes from the tracked session seconds, planned minutes with the
30-minute fallback, the on-time check against `time_minute`, and the habit
streak after recomputation. -/
def fresh_completion_xp (s : AppState) (c : Clock) (day : Int)
    (habit1 : HabitRow) : Int :=
  let sessions1 := pause_active s.sessions day c.now_ts
  let tracked := tracked_seconds_for_day sessions1 day c.now_ts
  let actual_minutes :=
    if 0 < tracked then some (max 1 (round_half_even ((tracked : Rat) / 60))) else none
  let planned := planned_of s.habit.duration_minutes
  let on_time : Bool :=
    match s.habit.time_minute with
    | some tm => if day = c.today then decide (c.now_minute ≤ min 1439 (tm + planned)) else true
    | none => true
  habit_completion_xp (some planned) actual_minutes on_time habit1.current_streak

/-- The outcome of `complete_habit`: the resulting database state, tagged
with the HTTP status class (an `HTTPException` aborts with the state written
so far). -/
inductive CompleteOutcome where
  | ok (s : AppState)
  | err (status : Nat) (s : AppState)
deriving Repr, DecidableEq

/-- The state carried by a `CompleteOutcome`. -/
def CompleteOutcome.state : CompleteOutcome → AppState
  | .ok s => s
  | .err _ s => s

/-- Did the call succeed? -/
def CompleteOutcome.isOk : CompleteOutcome → Bool
  | .ok _ => true
  | .err _ _ => false

/-- `POST /habits/{id}/complete`: reject a non-applicable day with a 400
before any write; otherwise pause the open session, insert the completion row
if it is net-new, recompute the streaks, and on a net-new completion compute
the XP, store it on the row and apply the delta to the profile. -/
def complete_habit (s : AppState) (c : Clock) (day : Int) : CompleteOutcome :=
  if habit_applies_on s.habit day = true then
    let sessions1 := pause_active s.sessions day c.now_ts
    if (s.completions.filter (fun r => r.completed_on == day)).isEmpty then
      let completions1 := s.completions ++ [{ completed_on := day, xp_awarded := 0 }]
      let habit1 := recalc_habit_row s.habit completions1 c.today
      let xp := fresh_completion_xp s c day habit1
      let completions2 := completions1.map
        (fun r => if r.completed_on == day then { r with xp_awarded := xp } else r)
      .ok { habit := habit1, completions := completions2, sessions := sessions1,
            profile := (apply_experience_delta s.profile xp).1 }
    else
      .ok { habit := recalc_habit_row s.habit s.completions c.today,
            completions := s.completions, sessions := sessions1, profile := s.profile }
  else .err 400 s

/-- The XP computed by the net-new path of `complete_habit` (the habit row
passed to the formula is the freshly recomputed one). -/
def freshXp (s : AppState) (c : Clock) (day : Int) : Int :=
  fresh_completion_xp s c day
    (recalc_habit_row s.habit
      (s.completions ++ [{ completed_on := day, xp_awarded := 0 }]) c.today)

/-- The state produced by the net-new path of `complete_habit`: row inserted,
streaks recomputed, XP stored on the row and applied to the profile. -/
def fresh_state (s : AppState) (c : Clock) (day : Int) : AppState :=
  { habit := recalc_habit_row s.habit
      (s.completions ++ [{ completed_on := day, xp_awarded := 0 }]) c.today,
    completions := (s.completions ++
        ([{ completed_on := day, xp_awarded := 0 }] : List CompletionRow)).map
      (fun (r : CompletionRow) => if r.completed_on == day then
        { r with xp_awarded := freshXp s c day } else r),
    sessions := pause_active s.sessions day c.now_ts,
    profile := (apply_experience_delta s.profile (freshXp s c day)).1 }

/-- The awarded-XP read `uncomplete_habit` performs (`limit(1)` head of the
completion rows for the day, `int(... or 0)` on a missing row). -/
def completion_xp_of (completions : List CompletionRow) (day : Int) : Int :=
  match (completions.filter (fun r => r.completed_on == day)).head? with
  | some r => r.xp_awarded
  | none => 0

/-- `DELETE /habits/{id}/complete`: read the awarded XP of the existing row
(if any), delete every completion row for the day, reverse a positive award
on the profile, and recompute the streaks. -/
def uncomplete_habit (s : AppState) (c : Clock) (day : Int) : AppState :=
  let xp := completion_xp_of s.completions day
  let completions1 := s.completions.filter (fun r => r.completed_on != day)
  let profile1 := if 0 < xp then (apply_experience_delta s.profile (-xp)).1 else s.profile
  let habit1 := recalc_habit_row s.habit completions1 c.today
  { habit := habit1, completions := completions1, sessions := s.sessions,
    profile := profile1 }

/-! ## Specification-side sets and sample data -/

/-- The unbroken tail of applicable completed days ending at `hi`: the
applicable completed days `d` with `lo ≤ d ≤ hi` such that every applicable
day between `d` and `hi` is completed.  This is the set the backward pass of
`_recalculate_streaks` counts. -/
def tailStreakSet (p : Int → Bool) (completed : Finset Int) (lo hi : Int) : Finset Int :=
  completed.filter (fun d => p d = true ∧ lo ≤ d ∧ d ≤ hi ∧
    ∀ e ∈ Finset.Icc d hi, p e = true → e ∈ completed)

/-- The list of days the forward pass of `_recalculate_streaks` walks:
`earliest .. max(today, latest)`, inclusive. -/
def walkRange (completed : Finset Int) (today : Int) (hne : completed.Nonempty) : List Int :=
  dayRange (completed.min' hne)
    (rangeLen (completed.min' hne) (max today (completed.max' hne)))

/-- The forward-pass state of `_recalculate_streaks` after walking the whole
evaluation range. -/
def forwardState (row : HabitRow) (completed : Finset Int) (today : Int)
    (hne : completed.Nonempty) : StreakState :=
  (walkRange completed today hne).foldl
    (forwardStep (habit_applies_on row) completed) initStreak

/-- A sample daily habit anchored at day 10, used to instantiate the claim
theorems on concrete inputs. -/
def sampleDaily : HabitRow :=
  { frequency_type := .daily, interval_days := none, custom_days := [],
    anchor_date := some 10, time_minute := none, duration_minutes := none,
    current_streak := 0, best_streak := 0, last_completed_on := none,
    next_occurrence_on := none }

/-- A sample interval habit (length 2, anchored at day 0). -/
def sampleInterval : HabitRow :=
  { frequency_type := .interval, interval_days := some 2, custom_days := [],
    anchor_date := some 0, time_minute := none, duration_minutes := none,
    current_streak := 0, best_streak := 0, last_completed_on := none,
    next_occurrence_on := none }

/-- A sample completion-day set for the sample daily habit. -/
def sampleDays : Finset Int := {11, 12}

/-- A sample database state: the daily habit anchored at day 10, no
completions, no sessions, a profile with 0 XP. -/
def sampleState : AppState :=
  { habit := sampleDaily, completions := [], sessions := [],
    profile := some { experience_points := some 0, current_level := some 1 } }

/-- A sample request clock (today = day 20). -/
def sampleClock : Clock := { today := 20, now_ts := 1000, now_minute := 600 }

/-! ## Basic facts about `dayRange` -/

theorem dayRange_succ_left (lo : Int) (n : Nat) :
    dayRange lo (n + 1) = lo :: dayRange (lo + 1) n := by
  unfold dayRange
  rw [List.range_succ_eq_map]
  simp only [List.map_cons, Nat.cast_zero, add_zero, List.map_map]
  refine congrArg _ (List.map_congr_left ?_)
  intro i _
  simp only [Function.comp_apply]
  push_cast
  ring

theorem dayRange_succ_right (lo : Int) (n : Nat) :
    dayRange lo (n + 1) = dayRange lo n ++ [lo + (n : Int)] := by
  unfold dayRange
  rw [List.range_succ]
  simp [List.map_append]

theorem mem_dayRange (lo d : Int) (n : Nat) :
    d ∈ dayRange lo n ↔ lo ≤ d ∧ d < lo + (n : Int) := by
  unfold dayRange
  rw [List.mem_map]
  constructor
  · rintro ⟨i, hi, rfl⟩
    rw [List.mem_range] at hi
    omega
  · intro h
    exact ⟨(d - lo).toNat, List.mem_range.mpr (by omega), by omega⟩

theorem find?_dayRange_some (p : Int → Bool) :
    ∀ (n : Nat) (lo d : Int), (dayRange lo n).find? p = some d ↔
      (p d = true ∧ lo ≤ d ∧ d < lo + (n : Int) ∧
        ∀ e, lo ≤ e → e < d → p e = false) := by
  intro n
  induction n with
  | zero =>
    intro lo d
    constructor
    · intro h
      simp [dayRange] at h
    · intro h
      omega
  | succ n ih =>
    intro lo d
    rw [dayRange_succ_left]
    by_cases hp : p lo = true
    · rw [List.find?_cons_of_pos _ hp]
      constructor
      · intro h
        obtain rfl : lo = d := by injection h
        exact ⟨hp, le_refl _, by omega, fun e h1 h2 => absurd h2 (by omega)⟩
      · rintro ⟨hpd, h1, h2, h3⟩
        by_cases hd : d = lo
        · subst hd; rfl
        · have hlt : lo < d := lt_of_le_of_ne h1 (Ne.symm hd)
          exact absurd (h3 lo (le_refl _) hlt) (by simp [hp])
    · have hp' : p lo = false := by
        simpa using hp
      rw [List.find?_cons_of_neg _ (by simp [hp'])]
      rw [ih (lo + 1) d]
      constructor
      · rintro ⟨hpd, h1, h2, h3⟩
        refine ⟨hpd, by omega, by push_cast; push_cast at h2; omega, ?_⟩
        intro e he1 he2
        by_cases he : e = lo
        · subst he; exact hp'
        · exact h3 e (by omega) he2
      · rintro ⟨hpd, h1, h2, h3⟩
        have hd : d ≠ lo := by
          intro hh
          rw [hh] at hpd
          simp [hp'] at hpd
        refine ⟨hpd, by omega, by push_cast; push_cast at h2; omega, ?_⟩
        intro e he1 he2
        exact h3 e (by omega) he2

theorem find?_dayRange_none (p : Int → Bool) (n : Nat) (lo : Int) :
    (dayRange lo n).find? p = none ↔
      ∀ d, lo ≤ d → d < lo + (n : Int) → p d = false := by
  rw [List.find?_eq_none]
  constructor
  · intro h d h1 h2
    have := h d ((mem_dayRange lo d n).mpr ⟨h1, h2⟩)
    simpa using this
  · intro h d hd
    have := h d ((mem_dayRange lo d n).mp hd).1 ((mem_dayRange lo d n).mp hd).2
    simp [this]

theorem dayRange_append (lo : Int) (a b : Nat) :
    dayRange lo (a + b) = dayRange lo a ++ dayRange (lo + (a : Int)) b := by
  unfold dayRange
  rw [List.range_add, List.map_append, List.map_map]
  refine congrArg _ (List.map_congr_left ?_)
  intro i _
  simp only [Function.comp_apply]
  push_cast
  ring

/-! ## The backward pass: `skip_gap` and `backward_count` -/

theorem skip_gap_le_aux (p : Int → Bool) (earliest : Int) :
    ∀ (k : Nat) (cursor : Int), (cursor + 1 - earliest).toNat ≤ k →
      skip_gap p earliest cursor ≤ cursor := by
  intro k
  induction k with
  | zero =>
    intro c hk
    unfold skip_gap
    split
    · rename_i h
      exact absurd h.1 (by omega)
    · exact le_refl c
  | succ k ih =>
    intro c hk
    unfold skip_gap
    split
    · rename_i h
      have h2 := ih (c - 1) (by omega)
      omega
    · exact le_refl c

/-- `skip_gap` never moves the cursor forward. -/
theorem skip_gap_le (p : Int → Bool) (earliest cursor : Int) :
    skip_gap p earliest cursor ≤ cursor :=
  skip_gap_le_aux p earliest _ cursor (le_refl _)

theorem skip_gap_exit_aux (p : Int → Bool) (earliest : Int) :
    ∀ (k : Nat) (cursor : Int), (cursor + 1 - earliest).toNat ≤ k →
      (skip_gap p earliest cursor < earliest ∨ p (skip_gap p earliest cursor) = true) := by
  intro k
  induction k with
  | zero =>
    intro c hk
    unfold skip_gap
    split
    · rename_i h
      exact absurd h.1 (by omega)
    · rename_i h
      by_cases hc : earliest ≤ c
      · right
        cases hpc : p c with
        | false => exact absurd ⟨hc, hpc⟩ h
        | true => rfl
      · left
        omega
  | succ k ih =>
    intro c hk
    unfold skip_gap
    split
    · rename_i h
      exact ih (c - 1) (by omega)
    · rename_i h
      by_cases hc : earliest ≤ c
      · right
        cases hpc : p c with
        | false => exact absurd ⟨hc, hpc⟩ h
        | true => rfl
      · left
        omega

/-- `skip_gap` stops strictly before `earliest` or on an applicable day. -/
theorem skip_gap_exit (p : Int → Bool) (earliest cursor : Int) :
    skip_gap p earliest cursor < earliest ∨ p (skip_gap p earliest cursor) = true :=
  skip_gap_exit_aux p earliest _ cursor (le_refl _)

theorem skip_gap_skipped_aux (p : Int → Bool) (earliest : Int) :
    ∀ (k : Nat) (cursor : Int), (cursor + 1 - earliest).toNat ≤ k →
      ∀ x, skip_gap p earliest cursor < x → x ≤ cursor → p x = false := by
  intro k
  induction k with
  | zero =>
    intro c hk
    unfold skip_gap
    split
    · rename_i h
      exact absurd h.1 (by omega)
    · intro x h1 h2
      exact absurd h2 (by omega)
  | succ k ih =>
    intro c hk
    unfold skip_gap
    split
    · rename_i h
      intro x h1 h2
      by_cases hx : x = c
      · subst hx
        exact h.2
      · exact ih (c - 1) (by omega) x h1 (by omega)
    · intro x h1 h2
      exact absurd h2 (by omega)

/-- Every day the `skip_gap` walk passed over is non-applicable. -/
theorem skip_gap_skipped (p : Int → Bool) (earliest cursor : Int) :
    ∀ x, skip_gap p earliest cursor < x → x ≤ cursor → p x = false :=
  skip_gap_skipped_aux p earliest _ cursor (le_refl _)

theorem mem_tailStreakSet (p : Int → Bool) (completed : Finset Int) (lo hi d : Int) :
    d ∈ tailStreakSet p completed lo hi ↔
      (d ∈ completed ∧ p d = true ∧ lo ≤ d ∧ d ≤ hi ∧
        ∀ e, d ≤ e → e ≤ hi → p e = true → e ∈ completed) := by
  unfold tailStreakSet
  rw [Finset.mem_filter]
  simp only [Finset.mem_Icc]
  constructor
  · rintro ⟨h1, h2, h3, h4, h5⟩
    exact ⟨h1, h2, h3, h4, fun e he1 he2 => h5 e ⟨he1, he2⟩⟩
  · rintro ⟨h1, h2, h3, h4, h5⟩
    exact ⟨h1, h2, h3, h4, fun e he => h5 e he.1 he.2⟩

theorem tailStreakSet_empty_of_lt (p : Int → Bool) (completed : Finset Int)
    (lo hi : Int) (h : hi < lo) : tailStreakSet p completed lo hi = ∅ := by
  ext d
  rw [mem_tailStreakSet]
  simp only [Finset.not_mem_empty, iff_false]
  rintro ⟨_, _, h3, h4, _⟩
  omega

theorem tailStreakSet_step_inactive (p : Int → Bool) (completed : Finset Int)
    (lo hi : Int) (h : p hi = false) :
    tailStreakSet p completed lo hi = tailStreakSet p completed lo (hi - 1) := by
  ext d
  rw [mem_tailStreakSet, mem_tailStreakSet]
  constructor
  · rintro ⟨h1, h2, h3, h4, h5⟩
    have hd : d ≤ hi - 1 := by
      rcases eq_or_lt_of_le h4 with he | he
      · rw [he, h] at h2
        simp at h2
      · omega
    exact ⟨h1, h2, h3, hd, fun e he1 he2 hp => h5 e he1 (by omega) hp⟩
  · rintro ⟨h1, h2, h3, h4, h5⟩
    refine ⟨h1, h2, h3, by omega, ?_⟩
    intro e he1 he2 hp
    by_cases he : e = hi
    · rw [he, h] at hp
      simp at hp
    · exact h5 e he1 (by omega) hp

theorem tailStreakSet_step_completed (p : Int → Bool) (completed : Finset Int)
    (lo hi : Int) (hp : p hi = true) (hm : hi ∈ completed) (hlo : lo ≤ hi) :
    tailStreakSet p completed lo hi =
      insert hi (tailStreakSet p completed lo (hi - 1)) := by
  ext d
  rw [Finset.mem_insert, mem_tailStreakSet, mem_tailStreakSet]
  constructor
  · rintro ⟨h1, h2, h3, h4, h5⟩
    by_cases hd : d = hi
    · exact Or.inl hd
    · right
      exact ⟨h1, h2, h3, by omega, fun e he1 he2 hpe => h5 e he1 (by omega) hpe⟩
  · rintro (hd | ⟨h1, h2, h3, h4, h5⟩)
    · subst hd
      refine ⟨hm, hp, hlo, le_refl _, ?_⟩
      intro e he1 he2 _
      have : e = d := by omega
      rw [this]
      exact hm
    · refine ⟨h1, h2, h3, by omega, ?_⟩
      intro e he1 he2 hpe
      by_cases he : e = hi
      · rw [he]
        exact hm
      · exact h5 e he1 (by omega) hpe

theorem tailStreakSet_step_missed (p : Int → Bool) (completed : Finset Int)
    (lo hi : Int) (hp : p hi = true) (hm : hi ∉ completed) :
    tailStreakSet p completed lo hi = ∅ := by
  ext d
  rw [mem_tailStreakSet]
  simp only [Finset.not_mem_empty, iff_false]
  rintro ⟨h1, h2, h3, h4, h5⟩
  exact hm (h5 hi h4 (le_refl _) hp)

theorem backward_count_eq_card_aux (p : Int → Bool) (completed : Finset Int)
    (earliest : Int) :
    ∀ (k : Nat) (cursor : Int), (cursor + 1 - earliest).toNat ≤ k →
      (p cursor = true ∨ cursor < earliest) →
      backward_count p completed earliest cursor =
        (tailStreakSet p completed earliest cursor).card := by
  intro k
  induction k with
  | zero =>
    intro c hk hc
    unfold backward_count
    rw [dif_neg (fun h => absurd h.1 (by omega))]
    rw [tailStreakSet_empty_of_lt p completed earliest c (by omega)]
    simp
  | succ k ih =>
    intro c hk hc
    unfold backward_count
    split
    · rename_i hcond
      split
      · rename_i hmem
        have hrle : skip_gap p earliest (c - 1) ≤ c - 1 := skip_gap_le p earliest (c - 1)
        have hrex := skip_gap_exit p earliest (c - 1)
        have hrskip := skip_gap_skipped p earliest (c - 1)
        have ihr := ih (skip_gap p earliest (c - 1)) (by omega) hrex.symm
        rw [ihr]
        have hset : tailStreakSet p completed earliest c =
            insert c (tailStreakSet p completed earliest (skip_gap p earliest (c - 1))) := by
          ext d
          rw [Finset.mem_insert, mem_tailStreakSet, mem_tailStreakSet]
          constructor
          · rintro ⟨h1, h2, h3, h4, h5⟩
            by_cases hdc : d = c
            · exact Or.inl hdc
            · right
              have hdr : d ≤ skip_gap p earliest (c - 1) := by
                by_contra hcon
                push_neg at hcon
                have := hrskip d hcon (by omega)
                rw [this] at h2
                simp at h2
              exact ⟨h1, h2, h3, hdr, fun e he1 he2 hpe => h5 e he1 (by omega) hpe⟩
          · rintro (hdc | ⟨h1, h2, h3, h4, h5⟩)
            · subst hdc
              refine ⟨hmem, hcond.2, hcond.1, le_refl _, ?_⟩
              intro e he1 he2 _
              have : e = d := by omega
              rw [this]
              exact hmem
            · refine ⟨h1, h2, h3, by omega, ?_⟩
              intro e he1 he2 hpe
              by_cases her : e ≤ skip_gap p earliest (c - 1)
              · exact h5 e he1 her hpe
              · by_cases hec : e = c
                · rw [hec]
                  exact hmem
                · have : p e = false := hrskip e (by omega) (by omega)
                  rw [this] at hpe
                  simp at hpe
        rw [hset, Finset.card_insert_of_not_mem]
        intro hmm
        rw [mem_tailStreakSet] at hmm
        obtain ⟨_, _, _, h4, _⟩ := hmm
        omega
      · rename_i hmem
        have : tailStreakSet p completed earliest c = ∅ := by
          ext d
          rw [mem_tailStreakSet]
          simp only [Finset.not_mem_empty, iff_false]
          rintro ⟨h1, h2, h3, h4, h5⟩
          exact hmem (h5 c h4 (le_refl _) hcond.2)
        rw [this]
        simp
    · rename_i hcond
      have hlt : c < earliest := by
        rcases hc with h | h
        · by_contra hcon
          push_neg at hcon
          exact hcond ⟨hcon, h⟩
        · exact h
      rw [tailStreakSet_empty_of_lt p completed earliest c hlt]
      simp

/-- The backward walk counts exactly the unbroken tail of applicable
completed days ending at its start cursor. -/
theorem backward_count_eq_card (p : Int → Bool) (completed : Finset Int)
    (earliest cursor : Int) (hc : p cursor = true ∨ cursor < earliest) :
    backward_count p completed earliest cursor =
      (tailStreakSet p completed earliest cursor).card :=
  backward_count_eq_card_aux p completed earliest _ cursor (le_refl _) hc

/-! ## The forward pass -/

theorem forwardStep_best_le (p : Int → Bool) (completed : Finset Int)
    (s : StreakState) (d : Int) : s.best ≤ (forwardStep p completed s d).best := by
  unfold forwardStep
  split
  · split
    · exact le_max_left _ _
    · exact le_refl _
  · exact le_refl _

theorem foldl_best_le (p : Int → Bool) (completed : Finset Int) :
    ∀ (L : List Int) (s : StreakState),
      s.best ≤ (L.foldl (forwardStep p completed) s).best := by
  intro L
  induction L with
  | nil => intro s; exact le_refl _
  | cons a L ih =>
    intro s
    exact le_trans (forwardStep_best_le p completed s a) (ih _)

theorem forwardStep_run_le_best (p : Int → Bool) (completed : Finset Int)
    (s : StreakState) (d : Int) (h : s.run ≤ s.best) :
    (forwardStep p completed s d).run ≤ (forwardStep p completed s d).best := by
  unfold forwardStep
  split
  · split
    · exact le_max_right _ _
    · exact Nat.zero_le _
  · exact h

theorem foldl_run_le_best (p : Int → Bool) (completed : Finset Int) :
    ∀ (L : List Int) (s : StreakState), s.run ≤ s.best →
      (L.foldl (forwardStep p completed) s).run ≤
        (L.foldl (forwardStep p completed) s).best := by
  intro L
  induction L with
  | nil => intro s h; exact h
  | cons a L ih =>
    intro s h
    exact ih _ (forwardStep_run_le_best p completed s a h)

/-- The running counter of any prefix of the walk never exceeds the final
`best`. -/
theorem foldl_run_le_best_of_split (p : Int → Bool) (completed : Finset Int)
    (L front back : List Int) (h : L = front ++ back) :
    (front.foldl (forwardStep p completed) initStreak).run ≤
      (L.foldl (forwardStep p completed) initStreak).best := by
  subst h
  rw [List.foldl_append]
  exact le_trans (foldl_run_le_best p completed front initStreak (le_refl 0))
    (foldl_best_le p completed back _)

/-- The final `best` is a value the running counter actually reaches at some
point of the walk. -/
theorem foldl_best_reached (p : Int → Bool) (completed : Finset Int) (L : List Int) :
    ∃ front back, L = front ++ back ∧
      (front.foldl (forwardStep p completed) initStreak).run =
        (L.foldl (forwardStep p completed) initStreak).best := by
  induction L using List.reverseRecOn with
  | nil => exact ⟨[], [], rfl, rfl⟩
  | append_singleton L d ih =>
    obtain ⟨front, back, hL, hrun⟩ := ih
    rw [List.foldl_append, List.foldl_cons, List.foldl_nil]
    by_cases hp : p d = true
    · by_cases hm : d ∈ completed
      · by_cases hcmp : (L.foldl (forwardStep p completed) initStreak).best ≤
            (L.foldl (forwardStep p completed) initStreak).run + 1
        · refine ⟨L ++ [d], [], (List.append_nil _).symm, ?_⟩
          rw [List.foldl_append, List.foldl_cons, List.foldl_nil]
          simp [forwardStep, hp, hm, Nat.max_eq_right hcmp]
        · refine ⟨front, back ++ [d], by rw [hL, List.append_assoc], ?_⟩
          simp only [forwardStep, hp, if_true, hm, if_pos]
          rw [Nat.max_eq_left (by omega)]
          exact hrun
      · refine ⟨front, back ++ [d], by rw [hL, List.append_assoc], ?_⟩
        simp only [forwardStep, hp, if_true, hm, if_neg, if_false]
        exact hrun
    · refine ⟨front, back ++ [d], by rw [hL, List.append_assoc], ?_⟩
      have hp' : p d = false := by simpa using hp
      simp only [forwardStep, hp', Bool.false_eq_true, if_false]
      exact hrun

theorem forwardStep_last (p : Int → Bool) (completed : Finset Int)
    (s : StreakState) (d : Int) :
    (forwardStep p completed s d).last =
      if p d = true ∧ d ∈ completed then some d else s.last := by
  by_cases hp : p d = true <;> by_cases hm : d ∈ completed <;>
    simp [forwardStep, hp, hm]

theorem forwardStep_run (p : Int → Bool) (completed : Finset Int)
    (s : StreakState) (d : Int) :
    (forwardStep p completed s d).run =
      if p d = true then (if d ∈ completed then s.run + 1 else 0) else s.run := by
  by_cases hp : p d = true <;> by_cases hm : d ∈ completed <;>
    simp [forwardStep, hp, hm]

/-- The forward pass records no last completed day iff no day of the walk is
both applicable and completed. -/
theorem foldl_last_none (p : Int → Bool) (completed : Finset Int) :
    ∀ (n : Nat) (lo : Int),
      (((dayRange lo n).foldl (forwardStep p completed) initStreak).last = none ↔
        ∀ d, lo ≤ d → d < lo + (n : Int) → ¬(p d = true ∧ d ∈ completed)) := by
  intro n
  induction n with
  | zero =>
    intro lo
    constructor
    · intro _ d h1 h2
      exact absurd h2 (by push_cast; omega)
    · intro _
      rfl
  | succ n ih =>
    intro lo
    rw [dayRange_succ_right, List.foldl_append, List.foldl_cons, List.foldl_nil,
      forwardStep_last]
    by_cases hx : p (lo + (n : Int)) = true ∧ (lo + (n : Int)) ∈ completed
    · rw [if_pos hx]
      constructor
      · intro h
        exact Option.noConfusion h
      · intro h
        exact absurd hx (h (lo + (n : Int)) (by omega) (by push_cast; omega))
    · rw [if_neg hx, ih lo]
      constructor
      · intro h d h1 h2
        by_cases hd : d = lo + (n : Int)
        · subst hd
          exact hx
        · exact h d h1 (by push_cast at h2 ⊢; omega)
      · intro h d h1 h2
        exact h d h1 (by push_cast at h2 ⊢; omega)

/-- The forward pass's recorded last completed day is the greatest applicable
completed day of the walk. -/
theorem foldl_last_some (p : Int → Bool) (completed : Finset Int) :
    ∀ (n : Nat) (lo m : Int),
      (((dayRange lo n).foldl (forwardStep p completed) initStreak).last = some m ↔
        (m ∈ completed ∧ p m = true ∧ lo ≤ m ∧ m < lo + (n : Int) ∧
          ∀ d, lo ≤ d → d < lo + (n : Int) → p d = true → d ∈ completed → d ≤ m)) := by
  intro n
  induction n with
  | zero =>
    intro lo m
    constructor
    · intro h
      simp [dayRange, initStreak] at h
    · rintro ⟨_, _, h3, h4, _⟩
      exact absurd h4 (by push_cast; omega)
  | succ n ih =>
    intro lo m
    rw [dayRange_succ_right, List.foldl_append, List.foldl_cons, List.foldl_nil,
      forwardStep_last]
    by_cases hx : p (lo + (n : Int)) = true ∧ (lo + (n : Int)) ∈ completed
    · rw [if_pos hx]
      constructor
      · intro h
        rw [Option.some.injEq] at h
        subst h
        refine ⟨hx.2, hx.1, by omega, by push_cast; omega, ?_⟩
        intro d h1 h2 _ _
        push_cast at h2
        omega
      · rintro ⟨h1, h2, h3, h4, h5⟩
        have hd := h5 (lo + (n : Int)) (by omega) (by push_cast; omega) hx.1 hx.2
        have hm : m = lo + (n : Int) := by push_cast at h4; omega
        rw [hm]
    · rw [if_neg hx, ih lo m]
      constructor
      · rintro ⟨h1, h2, h3, h4, h5⟩
        refine ⟨h1, h2, h3, by push_cast at h4 ⊢; omega, ?_⟩
        intro d hd1 hd2 hd3 hd4
        by_cases hd : d = lo + (n : Int)
        · exact absurd ⟨hd ▸ hd3, hd ▸ hd4⟩ hx
        · exact h5 d hd1 (by push_cast at hd2 ⊢; omega) hd3 hd4
      · rintro ⟨h1, h2, h3, h4, h5⟩
        have hm : m ≠ lo + (n : Int) := by
          intro hmm
          exact hx ⟨hmm ▸ h2, hmm ▸ h1⟩
        refine ⟨h1, h2, h3, by push_cast at h4 ⊢; omega, ?_⟩
        intro d hd1 hd2 hd3 hd4
        exact h5 d hd1 (by push_cast at hd2 ⊢; omega) hd3 hd4

/-- A walk that never meets an applicable completed day leaves the initial
state unchanged. -/
theorem foldl_inactive (p : Int → Bool) (completed : Finset Int) :
    ∀ (L : List Int), (∀ d ∈ L, ¬(p d = true ∧ d ∈ completed)) →
      L.foldl (forwardStep p completed) initStreak = initStreak := by
  intro L
  induction L with
  | nil => intro _; rfl
  | cons a L ih =>
    intro h
    rw [List.foldl_cons]
    have hstep : forwardStep p completed initStreak a = initStreak := by
      have ha := h a (List.mem_cons_self a L)
      by_cases hp : p a = true
      · have hm : a ∉ completed := fun hmm => ha ⟨hp, hmm⟩
        simp [forwardStep, hp, hm, initStreak]
      · simp [forwardStep, hp]
    rw [hstep]
    exact ih (fun d hd => h d (List.mem_cons_of_mem a hd))

/-- The final running counter of a walk over a consecutive range is the size
of the unbroken tail of applicable completed days ending at the range's last
day. -/
theorem foldl_run_card (p : Int → Bool) (completed : Finset Int) :
    ∀ (n : Nat) (lo : Int),
      ((dayRange lo n).foldl (forwardStep p completed) initStreak).run =
        (tailStreakSet p completed lo (lo + (n : Int) - 1)).card := by
  intro n
  induction n with
  | zero =>
    intro lo
    rw [tailStreakSet_empty_of_lt p completed lo (lo + ((0 : Nat) : Int) - 1)
      (by push_cast; omega)]
    simp [dayRange, initStreak]
  | succ n ih =>
    intro lo
    rw [dayRange_succ_right, List.foldl_append, List.foldl_cons, List.foldl_nil,
      forwardStep_run]
    have hcast : lo + ((n + 1 : Nat) : Int) - 1 = lo + (n : Int) := by push_cast; omega
    rw [hcast]
    by_cases hp : p (lo + (n : Int)) = true
    · by_cases hm : (lo + (n : Int)) ∈ completed
      · rw [if_pos hp, if_pos hm, ih lo]
        rw [tailStreakSet_step_completed p completed lo (lo + (n : Int)) hp hm (by omega)]
        rw [Finset.card_insert_of_not_mem (by
          intro hmm
          rw [mem_tailStreakSet] at hmm
          obtain ⟨_, _, _, h4, _⟩ := hmm
          omega)]
      · rw [if_pos hp, if_neg hm]
        rw [tailStreakSet_step_missed p completed lo (lo + (n : Int)) hp hm]
        simp
    · have hp' : p (lo + (n : Int)) = false := by simpa using hp
      rw [if_neg (by simp [hp']), ih lo]
      rw [tailStreakSet_step_inactive p completed lo (lo + (n : Int)) hp']

/-! ## Projections of `_recalculate_streaks` -/

theorem recalculate_streaks_empty (row : HabitRow) (today : Int) :
    recalculate_streaks row ∅ today = ⟨0, 0, none⟩ := by
  unfold recalculate_streaks
  rw [dif_neg (by simp)]

theorem recalc_best (row : HabitRow) (completed : Finset Int) (today : Int)
    (hne : completed.Nonempty) :
    (recalculate_streaks row completed today).best =
      (forwardState row completed today hne).best := by
  unfold recalculate_streaks forwardState walkRange
  rw [dif_pos hne]

theorem recalc_last (row : HabitRow) (completed : Finset Int) (today : Int)
    (hne : completed.Nonempty) :
    (recalculate_streaks row completed today).last_completed =
      (forwardState row completed today hne).last := by
  unfold recalculate_streaks forwardState walkRange
  rw [dif_pos hne]

theorem recalc_current (row : HabitRow) (completed : Finset Int) (today : Int)
    (hne : completed.Nonempty) :
    (recalculate_streaks row completed today).current =
      (match (forwardState row completed today hne).last with
        | some lc => backward_count (habit_applies_on row) completed
            (completed.min' hne) lc
        | none => 0) := by
  unfold recalculate_streaks forwardState walkRange
  rw [dif_pos hne]

/-! ## Claim theorems: recurrence evaluator and forecaster -/

/-- C1: the recurrence evaluator is a pure function of the habit snapshot and
the day with exactly the documented case split: false strictly before the
anchor date; daily habits apply on every day from the anchor on; interval
habits apply exactly on the days whose distance from the anchor is divisible
by the interval length, and never when that length is unset or zero;
custom-weekday habits apply exactly when the day's Sunday-first weekday is in
the normalized weekday set, and never when that set is empty. -/
theorem habit_applies_on_spec (row : HabitRow) (day : Int) :
    (∀ a, row.anchor_date = some a → day < a → habit_applies_on row day = false)
    ∧ (∀ a, row.anchor_date = some a → a ≤ day → row.frequency_type = .daily →
        habit_applies_on row day = true)
    ∧ (∀ a n, row.anchor_date = some a → a ≤ day → row.frequency_type = .interval →
        row.interval_days = some n → n ≠ 0 →
        (habit_applies_on row day = true ↔ (day - a) % n = 0))
    ∧ (row.frequency_type = .interval →
        (row.interval_days = none ∨ row.interval_days = some 0) →
        habit_applies_on row day = false)
    ∧ (∀ a, row.anchor_date = some a → a ≤ day → row.frequency_type = .custom_days →
        (habit_applies_on row day = true ↔
          weekday_sun_first day ∈ normalize_custom_days row.custom_days))
    ∧ (row.frequency_type = .custom_days →
        normalize_custom_days row.custom_days = [] →
        habit_applies_on row day = false) := by
  refine ⟨?_, ?_, ?_, ?_, ?_, ?_⟩
  · intro a ha hlt
    simp [habit_applies_on, ha, hlt]
  · intro a ha hle hf
    simp [habit_applies_on, ha, hf, not_lt.mpr hle]
  · intro a n ha hle hf hn hn0
    simp [habit_applies_on, ha, hf, hn, not_lt.mpr hle, hn0]
  · intro hf hcase
    rcases hcase with h | h <;> simp [habit_applies_on, hf, h]
  · intro a ha hle hf
    simp only [habit_applies_on, ha, Option.getD_some, hf]
    rw [if_neg (not_lt.mpr hle)]
    by_cases he : (normalize_custom_days row.custom_days).isEmpty
    · have hnil : normalize_custom_days row.custom_days = [] := by
        simpa [List.isEmpty_iff] using he
      simp [he, hnil]
    · simp only [he, if_false, Bool.false_eq_true]
      exact List.elem_iff
  · intro hf hnil
    simp [habit_applies_on, hf, hnil]

/-- C1 witness: the evaluator on the sample daily habit, after and before its
anchor. -/
theorem habit_applies_on_spec_check :
    habit_applies_on sampleDaily 12 = true ∧ habit_applies_on sampleDaily 5 = false :=
  ⟨(habit_applies_on_spec sampleDaily 12).2.1 10 rfl (by decide) rfl,
   (habit_applies_on_spec sampleDaily 5).1 10 rfl (by decide)⟩

/-- C6: the occurrence forecaster scans `start .. start + max_days`
(inclusive) and returns the first applicable day; it returns `none` (not an
error) exactly when no day in that range is applicable. -/
theorem first_applicable_on_or_after_spec (row : HabitRow) (start : Int) (max_days : Nat) :
    (∀ d, first_applicable_on_or_after row start max_days = some d ↔
      (habit_applies_on row d = true ∧ d ∈ Finset.Icc start (start + (max_days : Int)) ∧
        ∀ e ∈ Finset.Ico start d, habit_applies_on row e = false))
    ∧ (first_applicable_on_or_after row start max_days = none ↔
        ∀ d ∈ Finset.Icc start (start + (max_days : Int)), habit_applies_on row d = false) := by
  constructor
  · intro d
    unfold first_applicable_on_or_after
    rw [find?_dayRange_some]
    simp only [Finset.mem_Icc, Finset.mem_Ico]
    constructor
    · rintro ⟨h1, h2, h3, h4⟩
      exact ⟨h1, ⟨h2, by push_cast at h3 ⊢; omega⟩, fun e he => h4 e he.1 he.2⟩
    · rintro ⟨h1, ⟨h2, h3⟩, h4⟩
      exact ⟨h1, h2, by push_cast; omega, fun e he1 he2 => h4 e ⟨he1, he2⟩⟩
  · unfold first_applicable_on_or_after
    rw [find?_dayRange_none]
    simp only [Finset.mem_Icc]
    constructor
    · intro h d hd
      exact h d hd.1 (by push_cast; omega)
    · intro h d h1 h2
      exact h d ⟨h1, by push_cast at h2; omega⟩

/-- C6 witness: starting at day 1, the forecaster's first hit for the sample
interval habit is day 2. -/
theorem first_applicable_on_or_after_spec_check :
    first_applicable_on_or_after sampleInterval 1 730 = some 2 :=
  ((first_applicable_on_or_after_spec sampleInterval 1 730).1 2).mpr
    ⟨by decide, Finset.mem_Icc.mpr (by decide), by
      intro e he
      have h1 := Finset.mem_Ico.mp he
      have h2 : e = 1 := by omega
      subst h2
      decide⟩

/-! ## Claim theorems: streak reconstruction -/

theorem sampleDays_nonempty : sampleDays.Nonempty :=
  ⟨11, by decide⟩

/-- C2: the streak recomputation's forward pass walks every day from the
earliest completed day to `max(today, latest completed day)`; the returned
best streak is the maximum value the running counter ever reaches (it bounds
the counter of every prefix of the walk and is attained by one of them);
`lastCompleted` is the most recent applicable completed day; the empty
completion set yields current = 0, best = 0, lastCompleted = none. -/
theorem recalculate_streaks_forward_spec (row : HabitRow) (completed : Finset Int)
    (today : Int) :
    (completed = ∅ → recalculate_streaks row completed today = ⟨0, 0, none⟩)
    ∧ (∀ hne : completed.Nonempty,
        (∀ front back, walkRange completed today hne = front ++ back →
          (front.foldl (forwardStep (habit_applies_on row) completed) initStreak).run ≤
            (recalculate_streaks row completed today).best)
        ∧ (∃ front back, walkRange completed today hne = front ++ back ∧
            (front.foldl (forwardStep (habit_applies_on row) completed) initStreak).run =
              (recalculate_streaks row completed today).best)
        ∧ (∀ m, (recalculate_streaks row completed today).last_completed = some m ↔
            (m ∈ completed ∧ habit_applies_on row m = true ∧
              ∀ d ∈ completed, habit_applies_on row d = true → d ≤ m))) := by
  constructor
  · intro h
    subst h
    exact recalculate_streaks_empty row today
  · intro hne
    have hminmax : completed.min' hne ≤ completed.max' hne := by
      obtain ⟨a, ha⟩ := hne
      exact le_trans (Finset.min'_le completed a ha) (Finset.le_max' completed a ha)
    have hEle : completed.min' hne ≤ max today (completed.max' hne) :=
      le_trans hminmax (le_max_right _ _)
    have hlen : ((rangeLen (completed.min' hne) (max today (completed.max' hne)) : Nat) : Int) =
        max today (completed.max' hne) + 1 - completed.min' hne := by
      unfold rangeLen
      omega
    refine ⟨?_, ?_, ?_⟩
    · intro front back hsplit
      rw [recalc_best row completed today hne]
      exact foldl_run_le_best_of_split (habit_applies_on row) completed
        (walkRange completed today hne) front back hsplit
    · obtain ⟨front, back, hsplit, hrun⟩ :=
        foldl_best_reached (habit_applies_on row) completed (walkRange completed today hne)
      refine ⟨front, back, hsplit, ?_⟩
      rw [recalc_best row completed today hne]
      exact hrun
    · intro m
      rw [recalc_last row completed today hne]
      unfold forwardState walkRange
      rw [foldl_last_some]
      constructor
      · rintro ⟨h1, h2, h3, h4, h5⟩
        refine ⟨h1, h2, ?_⟩
        intro d hd hpd
        have hdmax := Finset.le_max' completed d hd
        exact h5 d (Finset.min'_le completed d hd) (by omega) hpd hd
      · rintro ⟨h1, h2, h3⟩
        have hmmax := Finset.le_max' completed m h1
        refine ⟨h1, h2, Finset.min'_le completed m h1, by omega, ?_⟩
        intro d hd1 hd2 hpd hdc
        exact h3 d hdc hpd

/-- C2 witness: the empty set gives the all-zero result; on completed days
{11, 12} of the sample daily habit the recorded last completed day is 12 and
the full walk's final counter is bounded by the best streak. -/
theorem recalculate_streaks_forward_spec_check :
    recalculate_streaks sampleDaily ∅ 12 = ⟨0, 0, none⟩ ∧
    (recalculate_streaks sampleDaily sampleDays 12).last_completed = some 12 ∧
    ((walkRange sampleDays 12 sampleDays_nonempty).foldl
        (forwardStep (habit_applies_on sampleDaily) sampleDays) initStreak).run ≤
      (recalculate_streaks sampleDaily sampleDays 12).best := by
  refine ⟨(recalculate_streaks_forward_spec sampleDaily ∅ 12).1 rfl, ?_, ?_⟩
  · exact (((recalculate_streaks_forward_spec sampleDaily sampleDays 12).2
      sampleDays_nonempty).2.2 12).mpr ⟨by decide, by decide, by decide⟩
  · exact ((recalculate_streaks_forward_spec sampleDaily sampleDays 12).2
      sampleDays_nonempty).1 _ [] (List.append_nil _).symm

/-- C3: whenever a last applicable completed day was recorded, the returned
current streak is exactly the size of the unbroken tail obtained by walking
backward from it: applicable completed days are counted, non-applicable gaps
are skipped without breaking the count, and the count stops at the first
applicable missed day or before the earliest completed day. -/
theorem recalculate_streaks_current_spec (row : HabitRow) (completed : Finset Int)
    (today m : Int) (hne : completed.Nonempty)
    (hm : (recalculate_streaks row completed today).last_completed = some m) :
    (recalculate_streaks row completed today).current =
      (tailStreakSet (habit_applies_on row) completed (completed.min' hne) m).card := by
  rw [recalc_last row completed today hne] at hm
  rw [recalc_current row completed today hne, hm]
  have hm' : ((dayRange (completed.min' hne)
      (rangeLen (completed.min' hne) (max today (completed.max' hne)))).foldl
      (forwardStep (habit_applies_on row) completed) initStreak).last = some m := hm
  have hchar := (foldl_last_some (habit_applies_on row) completed _ _ m).mp hm'
  exact backward_count_eq_card (habit_applies_on row) completed
    (completed.min' hne) m (Or.inl hchar.2.1)

/-- C3 witness: on completed days {11, 12} of the sample daily habit, the
current streak equals the size of the backward tail from day 12. -/
theorem recalculate_streaks_current_spec_check :
    (recalculate_streaks sampleDaily sampleDays 12).current =
      (tailStreakSet (habit_applies_on sampleDaily) sampleDays
        (sampleDays.min' sampleDays_nonempty) 12).card :=
  recalculate_streaks_current_spec sampleDaily sampleDays 12 12
    sampleDays_nonempty (by decide)

/-- C9: the recomputed derived values always satisfy 0 ≤ current ≤ best, and
when no applicable completed day exists (lastCompleted = none) both streaks
are zero. -/
theorem recalculate_streaks_invariant (row : HabitRow) (completed : Finset Int)
    (today : Int) :
    0 ≤ (recalculate_streaks row completed today).current
    ∧ (recalculate_streaks row completed today).current ≤
        (recalculate_streaks row completed today).best
    ∧ ((recalculate_streaks row completed today).last_completed = none →
        (recalculate_streaks row completed today).current = 0 ∧
        (recalculate_streaks row completed today).best = 0) := by
  by_cases hne : completed.Nonempty
  · refine ⟨Nat.zero_le _, ?_, ?_⟩
    · rw [recalc_current row completed today hne, recalc_best row completed today hne]
      cases hlast : (forwardState row completed today hne).last with
      | none => exact Nat.zero_le _
      | some m =>
        show backward_count (habit_applies_on row) completed (completed.min' hne) m ≤
          (forwardState row completed today hne).best
        have hlast' : ((dayRange (completed.min' hne)
            (rangeLen (completed.min' hne) (max today (completed.max' hne)))).foldl
            (forwardStep (habit_applies_on row) completed) initStreak).last = some m := hlast
        obtain ⟨hm1, hm2, hm3, hm4, hm5⟩ :=
          (foldl_last_some (habit_applies_on row) completed _ _ m).mp hlast'
        rw [backward_count_eq_card (habit_applies_on row) completed
          (completed.min' hne) m (Or.inl hm2)]
        have hrun := foldl_run_card (habit_applies_on row) completed
          (rangeLen (completed.min' hne) m) (completed.min' hne)
        have hxm : completed.min' hne +
            ((rangeLen (completed.min' hne) m : Nat) : Int) - 1 = m := by
          unfold rangeLen
          omega
        rw [hxm] at hrun
        rw [← hrun]
        have hmE : m ≤ max today (completed.max' hne) := by
          have h1 := Finset.le_max' completed m hm1
          have h2 : completed.max' hne ≤ max today (completed.max' hne) := le_max_right _ _
          omega
        have hab : rangeLen (completed.min' hne) (max today (completed.max' hne)) =
            rangeLen (completed.min' hne) m +
              (rangeLen (completed.min' hne) (max today (completed.max' hne)) -
                rangeLen (completed.min' hne) m) := by
          unfold rangeLen
          omega
        have hsplit : dayRange (completed.min' hne)
            (rangeLen (completed.min' hne) (max today (completed.max' hne))) =
          dayRange (completed.min' hne) (rangeLen (completed.min' hne) m) ++
            dayRange (completed.min' hne +
                ((rangeLen (completed.min' hne) m : Nat) : Int))
              (rangeLen (completed.min' hne) (max today (completed.max' hne)) -
                rangeLen (completed.min' hne) m) := by
          conv_lhs => rw [hab]
          exact dayRange_append _ _ _
        exact foldl_run_le_best_of_split (habit_applies_on row) completed _ _ _ hsplit
    · intro hnone
      rw [recalc_last row completed today hne] at hnone
      have hnone' : ((dayRange (completed.min' hne)
          (rangeLen (completed.min' hne) (max today (completed.max' hne)))).foldl
          (forwardStep (habit_applies_on row) completed) initStreak).last = none := hnone
      have hall := (foldl_last_none (habit_applies_on row) completed _ _).mp hnone'
      have hfold : (dayRange (completed.min' hne)
          (rangeLen (completed.min' hne) (max today (completed.max' hne)))).foldl
          (forwardStep (habit_applies_on row) completed) initStreak = initStreak := by
        apply foldl_inactive
        intro d hd
        rw [mem_dayRange] at hd
        exact hall d hd.1 hd.2
      constructor
      · rw [recalc_current row completed today hne, hnone]
      · rw [recalc_best row completed today hne]
        show ((dayRange (completed.min' hne)
          (rangeLen (completed.min' hne) (max today (completed.max' hne)))).foldl
          (forwardStep (habit_applies_on row) completed) initStreak).best = 0
        rw [hfold]
        rfl
  · have hemp : completed = ∅ := Finset.not_nonempty_iff_eq_empty.mp hne
    subst hemp
    rw [recalculate_streaks_empty]
    exact ⟨Nat.zero_le _, le_refl _, fun _ => ⟨rfl, rfl⟩⟩

/-- C9 witness: on the empty completion set no last completed day is recorded
and both streaks are zero. -/
theorem recalculate_streaks_invariant_check :
    (recalculate_streaks sampleDaily ∅ 12).current = 0 ∧
    (recalculate_streaks sampleDaily ∅ 12).best = 0 :=
  (recalculate_streaks_invariant sampleDaily ∅ 12).2.2 (by decide)

/-! ## Claim theorems: XP formulas and the profile clamp -/

/-- C8: the task completion XP is `max(10, 35 + priorityBonus + durationBonus
+ efficiencyBonus + onTimeBonus + streakBonus)` with the priority mapping
`{1 ↦ 6, 2 ↦ 14, 3 ↦ 24, otherwise 10}`, `durationBonus = min(40,
round(planned / 4))` (banker's rounding of `planned * 0.25`), a 16-point
on-time bonus, and the exact streak milestone lookup
`{3 ↦ 10, 7 ↦ 25, 14 ↦ 55, 30 ↦ 120, otherwise 0}`. -/
theorem task_completion_xp_spec (priority : Int) (planned actual : Option Int)
    (on_time : Bool) (streak : Int) :
    task_completion_xp priority planned actual on_time streak =
      max 10 (35
        + (if priority = 1 then 6 else if priority = 2 then 14
           else if priority = 3 then 24 else 10)
        + min 40 (round_half_even ((planned.getD 0 : Rat) / 4))
        + duration_efficiency_bonus planned actual false
        + (if on_time then 16 else 0)
        + (if streak = 3 then 10 else if streak = 7 then 25 else if streak = 14 then 55
           else if streak = 30 then 120 else 0)) := by
  have hms : streak_milestone_bonus streak =
      (if streak = 3 then 10 else if streak = 7 then 25 else if streak = 14 then 55
       else if streak = 30 then 120 else 0) := by
    simp only [streak_milestone_bonus]
    split_ifs <;> omega
  have hq : ((planned.getD 0 : Rat) * (25/100) : Rat) = ((planned.getD 0 : Rat) / 4 : Rat) := by
    rw [show (25/100 : Rat) = 1/4 by norm_num, mul_one_div]
  unfold task_completion_xp
  rw [hms, hq]

/-- C10: every delta application to an existing profile stores
`max(0, x + delta)`: the persisted experience points are never negative, and
a reversal below zero silently floors at 0. -/
theorem apply_experience_delta_clamps (x delta : Int) (lvl : Option Int) (hx : 0 ≤ x) :
    ((apply_experience_delta
        (some { experience_points := some x, current_level := lvl }) delta).1 =
      some { experience_points := some (max 0 (x + delta)),
             current_level := some ((progress_from_experience (max 0 (x + delta))).level) })
    ∧ (∀ row1 v,
        (apply_experience_delta
          (some { experience_points := some x, current_level := lvl }) delta).1 = some row1 →
        row1.experience_points = some v → 0 ≤ v)
    ∧ (x + delta < 0 →
      (apply_experience_delta
          (some { experience_points := some x, current_level := lvl }) delta).1 =
        some { experience_points := some 0,
               current_level := some ((progress_from_experience 0).level) }) := by
  have hxp : ∀ t : Int, (progress_from_experience t).experiencePoints = max 0 t :=
    fun t => rfl
  have hmm : max 0 (max 0 (x + delta)) = max 0 (x + delta) := by omega
  refine ⟨?_, ?_, ?_⟩
  · simp only [apply_experience_delta, Option.getD_some, hxp, hmm]
  · intro row1 v h1 h2
    simp only [apply_experience_delta, Option.getD_some, hxp, hmm,
      Option.some.injEq] at h1
    rw [← h1] at h2
    simp only [Option.some.injEq] at h2
    omega
  · intro hneg
    have h0 : max 0 (x + delta) = 0 := by omega
    simp only [apply_experience_delta, Option.getD_some, hxp, hmm, h0]
    norm_num

/-- C10 witness: reversing 100 XP off a balance of 5 floors the stored value
at 0. -/
theorem apply_experience_delta_clamps_check :
    (0 : Int) ≤ 5 ∧
    (apply_experience_delta
        (some { experience_points := some 5, current_level := none }) (-100)).1 =
      some { experience_points := some 0,
             current_level := some ((progress_from_experience 0).level) } :=
  ⟨by decide, (apply_experience_delta_clamps 5 (-100) none (by decide)).2.2 (by decide)⟩

/-- C7: completing a habit on a day the evaluator rejects fails with a 400
and leaves the database state untouched (the check precedes every write). -/
theorem complete_habit_rejects (s : AppState) (c : Clock) (day : Int)
    (h : habit_applies_on s.habit day = false) :
    complete_habit s c day = .err 400 s := by
  unfold complete_habit
  rw [if_neg]
  simp [h]

/-- C7 witness: completing the sample habit on day 5 (before its anchor)
returns a 400 with the state unchanged. -/
theorem complete_habit_rejects_check :
    complete_habit sampleState sampleClock 5 = .err 400 sampleState :=
  complete_habit_rejects sampleState sampleClock 5 (by decide)

/-! ## Claim theorems: the completion ledger -/

theorem habit_applies_on_recalc (row : HabitRow) (cs : List CompletionRow)
    (today : Int) :
    habit_applies_on (recalc_habit_row row cs today) = habit_applies_on row := by
  funext d
  rfl

theorem recalculate_streaks_congr (r1 r2 : HabitRow) (completed : Finset Int)
    (today : Int) (h : habit_applies_on r1 = habit_applies_on r2) :
    recalculate_streaks r1 completed today = recalculate_streaks r2 completed today := by
  unfold recalculate_streaks
  rw [h]

theorem recalc_habit_row_fields (row : HabitRow) (cs : List CompletionRow)
    (today : Int) :
    (recalc_habit_row row cs today).current_streak =
      ((recalculate_streaks row (daysOf cs) today).current : Int) ∧
    (recalc_habit_row row cs today).best_streak =
      ((recalculate_streaks row (daysOf cs) today).best : Int) ∧
    (recalc_habit_row row cs today).last_completed_on =
      (recalculate_streaks row (daysOf cs) today).last_completed :=
  ⟨rfl, rfl, rfl⟩

/-- Every habit completion XP award is at least the formula's floor of 18. -/
theorem fresh_completion_xp_ge (s : AppState) (c : Clock) (day : Int)
    (habit1 : HabitRow) : 18 ≤ fresh_completion_xp s c day habit1 := by
  unfold fresh_completion_xp habit_completion_xp
  exact le_max_left _ _

theorem apply_delta_pos (x d : Int) (lvl : Option Int) (hx : 0 ≤ x) (hd : 0 ≤ d) :
    (apply_experience_delta
        (some { experience_points := some x, current_level := lvl }) d).1 =
      some { experience_points := some (x + d),
             current_level := some ((progress_from_experience (x + d)).level) } := by
  have h1 : max 0 (x + d) = x + d := by omega
  simp only [apply_experience_delta, Option.getD_some, h1]
  have h2 : (progress_from_experience (x + d)).experiencePoints = x + d := by
    show max 0 (x + d) = x + d
    omega
  rw [h2]

theorem apply_delta_restore (x d : Int) (lvl : Option Int) (hx : 0 ≤ x) :
    (apply_experience_delta
        (some { experience_points := some (x + d), current_level := lvl }) (-d)).1 =
      some { experience_points := some x,
             current_level := some ((progress_from_experience x).level) } := by
  have h1 : max 0 (x + d + -d) = x := by omega
  simp only [apply_experience_delta, Option.getD_some, h1]
  have h2 : (progress_from_experience x).experiencePoints = x := by
    show max 0 x = x
    omega
  rw [h2]

/-- `complete_habit` on an applicable day with no existing completion row
takes the net-new path. -/
theorem complete_habit_fresh (s : AppState) (c : Clock) (day : Int)
    (h1 : habit_applies_on s.habit day = true)
    (h2 : s.completions.filter (fun r => r.completed_on == day) = []) :
    complete_habit s c day = .ok (fresh_state s c day) := by
  unfold complete_habit fresh_state freshXp
  rw [if_pos h1, if_pos (by rw [h2]; rfl)]

/-- `complete_habit` on an applicable day that already has a completion row:
no insert, no XP, only the streak recomputation and the session pause. -/
theorem complete_habit_repeat (s : AppState) (c : Clock) (day : Int)
    (h1 : habit_applies_on s.habit day = true)
    (h2 : (s.completions.filter (fun r => r.completed_on == day)).isEmpty = false) :
    complete_habit s c day = .ok
      { habit := recalc_habit_row s.habit s.completions c.today,
        completions := s.completions,
        sessions := pause_active s.sessions day c.now_ts,
        profile := s.profile } := by
  unfold complete_habit
  rw [if_pos h1, if_neg (by simp [h2])]

theorem uncomplete_habit_fields (s : AppState) (c : Clock) (day : Int) :
    (uncomplete_habit s c day).habit =
      recalc_habit_row s.habit
        (s.completions.filter (fun r => r.completed_on != day)) c.today
    ∧ (uncomplete_habit s c day).completions =
      s.completions.filter (fun r => r.completed_on != day)
    ∧ (uncomplete_habit s c day).profile =
      (if 0 < completion_xp_of s.completions day
       then (apply_experience_delta s.profile (-(completion_xp_of s.completions day))).1
       else s.profile) :=
  ⟨rfl, rfl, rfl⟩

theorem freshXp_ge (s : AppState) (c : Clock) (day : Int) :
    18 ≤ freshXp s c day :=
  fresh_completion_xp_ge s c day _

theorem fresh_state_habit (s : AppState) (c : Clock) (day : Int) :
    (fresh_state s c day).habit =
      recalc_habit_row s.habit
        (s.completions ++ [{ completed_on := day, xp_awarded := 0 }]) c.today :=
  rfl

theorem fresh_state_profile (s : AppState) (c : Clock) (day : Int) :
    (fresh_state s c day).profile =
      (apply_experience_delta s.profile (freshXp s c day)).1 :=
  rfl

theorem fresh_state_completions (s : AppState) (c : Clock) (day : Int)
    (hall : ∀ r ∈ s.completions, (r.completed_on == day) = false) :
    (fresh_state s c day).completions =
      s.completions ++ [{ completed_on := day, xp_awarded := freshXp s c day }] := by
  show (s.completions ++
      ([{ completed_on := day, xp_awarded := 0 }] : List CompletionRow)).map
      (fun (r : CompletionRow) => if r.completed_on == day then
        { r with xp_awarded := freshXp s c day } else r) = _
  rw [List.map_append]
  have hA : s.completions.map
      (fun (r : CompletionRow) => if r.completed_on == day then
        { r with xp_awarded := freshXp s c day } else r) = s.completions := by
    conv_rhs => rw [← List.map_id s.completions]
    apply List.map_congr_left
    intro r hr
    simp [hall r hr]
  have hB : ([{ completed_on := day, xp_awarded := 0 }] : List CompletionRow).map
      (fun (r : CompletionRow) => if r.completed_on == day then
        { r with xp_awarded := freshXp s c day } else r) =
      [{ completed_on := day, xp_awarded := freshXp s c day }] := by
    simp
  rw [hA, hB]

theorem fresh_state_filter (s : AppState) (c : Clock) (day : Int)
    (hall : ∀ r ∈ s.completions, (r.completed_on == day) = false)
    (h2 : s.completions.filter (fun r => r.completed_on == day) = []) :
    (fresh_state s c day).completions.filter (fun r => r.completed_on == day) =
      [{ completed_on := day, xp_awarded := freshXp s c day }] := by
  rw [fresh_state_completions s c day hall, List.filter_append, h2]
  simp

/-- C4: completing the same (habit, day) twice in sequence from a state with
no completion row for that day leaves exactly one completion row, carrying
the single XP award that is applied to the profile exactly once; the second
call detects the existing row, inserts nothing and applies no XP delta. -/
theorem complete_habit_idempotent (s : AppState) (c : Clock) (day x : Int)
    (lvl : Option Int)
    (h1 : habit_applies_on s.habit day = true)
    (h2 : s.completions.filter (fun r => r.completed_on == day) = [])
    (hp : s.profile = some { experience_points := some x, current_level := lvl })
    (hx : 0 ≤ x) :
    ((complete_habit s c day).isOk = true)
    ∧ (((complete_habit s c day).state.completions.filter
        (fun r => r.completed_on == day)).length = 1)
    ∧ ((complete_habit (complete_habit s c day).state c day).isOk = true)
    ∧ ((complete_habit (complete_habit s c day).state c day).state.completions =
        (complete_habit s c day).state.completions)
    ∧ ((complete_habit (complete_habit s c day).state c day).state.profile =
        (complete_habit s c day).state.profile)
    ∧ (∀ r, (complete_habit s c day).state.completions.filter
          (fun t => t.completed_on == day) = [r] →
        18 ≤ r.xp_awarded ∧
        (complete_habit s c day).state.profile =
          some { experience_points := some (x + r.xp_awarded),
                 current_level :=
                   some ((progress_from_experience (x + r.xp_awarded)).level) }) := by
  have hall : ∀ r ∈ s.completions, (r.completed_on == day) = false := by
    intro r hr
    have := List.filter_eq_nil_iff.mp h2 r hr
    simpa using this
  have hfresh := complete_habit_fresh s c day h1 h2
  have hstate : (complete_habit s c day).state = fresh_state s c day := by
    rw [hfresh]
    rfl
  have hfilter1 := fresh_state_filter s c day hall h2
  have hxp18 := freshXp_ge s c day
  have hprof1 : (complete_habit s c day).state.profile =
      some { experience_points := some (x + freshXp s c day),
             current_level :=
               some ((progress_from_experience (x + freshXp s c day)).level) } := by
    rw [hstate, fresh_state_profile, hp]
    exact apply_delta_pos x _ lvl hx (by omega)
  have h1' : habit_applies_on (complete_habit s c day).state.habit day = true := by
    rw [hstate, fresh_state_habit, habit_applies_on_recalc]
    exact h1
  have hrep := complete_habit_repeat ((complete_habit s c day).state) c day h1'
    (by rw [hstate, hfilter1]; rfl)
  refine ⟨?_, ?_, ?_, ?_, ?_, ?_⟩
  · rw [hfresh]
    rfl
  · rw [hstate, hfilter1]
    rfl
  · rw [hrep]
    rfl
  · rw [hrep]
    rfl
  · rw [hrep]
    rfl
  · intro r hr
    rw [hstate, hfilter1] at hr
    injection hr with hhead htail
    subst hhead
    exact ⟨hxp18, hprof1⟩


/-- C4 witness: completing the sample habit twice on day 20 yields one
completion row, and the second call leaves the profile unchanged. -/
theorem complete_habit_idempotent_check :
    ((complete_habit sampleState sampleClock 20).state.completions.filter
      (fun r => r.completed_on == 20)).length = 1 ∧
    (complete_habit (complete_habit sampleState sampleClock 20).state
        sampleClock 20).state.profile =
      (complete_habit sampleState sampleClock 20).state.profile :=
  ⟨(complete_habit_idempotent sampleState sampleClock 20 0 (some 1)
      (by decide) rfl rfl (by decide)).2.1,
   (complete_habit_idempotent sampleState sampleClock 20 0 (some 1)
      (by decide) rfl rfl (by decide)).2.2.2.2.1⟩

/-- C5: on a fresh applicable day, completing and then uncompleting restores
the habit's derived streak fields (current, best, last completed) to their
consistent pre-completion values, and the profile's XP returns to its
starting value — the uncompletion reverses exactly the XP stored on the
completion row. -/
theorem complete_uncomplete_round_trip (s : AppState) (c : Clock) (day x : Int)
    (lvl : Option Int)
    (h1 : habit_applies_on s.habit day = true)
    (h2 : s.completions.filter (fun r => r.completed_on == day) = [])
    (hp : s.profile = some { experience_points := some x, current_level := lvl })
    (hx : 0 ≤ x)
    (hc1 : s.habit.current_streak =
      ((recalculate_streaks s.habit (daysOf s.completions) c.today).current : Int))
    (hc2 : s.habit.best_streak =
      ((recalculate_streaks s.habit (daysOf s.completions) c.today).best : Int))
    (hc3 : s.habit.last_completed_on =
      (recalculate_streaks s.habit (daysOf s.completions) c.today).last_completed) :
    (uncomplete_habit (complete_habit s c day).state c day).habit.current_streak =
      s.habit.current_streak
    ∧ (uncomplete_habit (complete_habit s c day).state c day).habit.best_streak =
      s.habit.best_streak
    ∧ (uncomplete_habit (complete_habit s c day).state c day).habit.last_completed_on =
      s.habit.last_completed_on
    ∧ (uncomplete_habit (complete_habit s c day).state c day).profile =
      some { experience_points := some x,
             current_level := some ((progress_from_experience x).level) } := by
  have hall : ∀ r ∈ s.completions, (r.completed_on == day) = false := by
    intro r hr
    have := List.filter_eq_nil_iff.mp h2 r hr
    simpa using this
  have hfresh := complete_habit_fresh s c day h1 h2
  have hstate : (complete_habit s c day).state = fresh_state s c day := by
    rw [hfresh]
    rfl
  have hfilter1 := fresh_state_filter s c day hall h2
  have hxp18 := freshXp_ge s c day
  have hprof1 : (complete_habit s c day).state.profile =
      some { experience_points := some (x + freshXp s c day),
             current_level :=
               some ((progress_from_experience (x + freshXp s c day)).level) } := by
    rw [hstate, fresh_state_profile, hp]
    exact apply_delta_pos x _ lvl hx (by omega)
  obtain ⟨hu1, hu2, hu3⟩ := uncomplete_habit_fields ((complete_habit s c day).state) c day
  have hfilterne : (complete_habit s c day).state.completions.filter
      (fun r => r.completed_on != day) = s.completions := by
    rw [hstate, fresh_state_completions s c day hall, List.filter_append]
    have hA : s.completions.filter (fun r => r.completed_on != day) = s.completions := by
      apply List.filter_eq_self.mpr
      intro r hr
      simp [bne, hall r hr]
    have hB : ([{ completed_on := day, xp_awarded := freshXp s c day }] :
        List CompletionRow).filter (fun r => r.completed_on != day) = [] := by
      simp
    rw [hA, hB, List.append_nil]
  have hxpread : completion_xp_of (complete_habit s c day).state.completions day =
      freshXp s c day := by
    unfold completion_xp_of
    rw [hstate, hfilter1]
    rfl
  have happlies : habit_applies_on (complete_habit s c day).state.habit =
      habit_applies_on s.habit := by
    rw [hstate, fresh_state_habit]
    exact habit_applies_on_recalc s.habit _ c.today
  have hfinal : (uncomplete_habit (complete_habit s c day).state c day).habit =
      recalc_habit_row (complete_habit s c day).state.habit s.completions c.today := by
    rw [hu1, hfilterne]
  have hstreaks : recalculate_streaks (complete_habit s c day).state.habit
      (daysOf s.completions) c.today =
      recalculate_streaks s.habit (daysOf s.completions) c.today :=
    recalculate_streaks_congr _ _ (daysOf s.completions) c.today happlies
  obtain ⟨hf1, hf2, hf3⟩ := recalc_habit_row_fields
    ((complete_habit s c day).state.habit) s.completions c.today
  refine ⟨?_, ?_, ?_, ?_⟩
  · rw [hfinal, hf1, hstreaks, ← hc1]
  · rw [hfinal, hf2, hstreaks, ← hc2]
  · rw [hfinal, hf3, hstreaks, ← hc3]
  · rw [hu3, hxpread, if_pos (by omega : (0:Int) < freshXp s c day), hprof1]
    exact apply_delta_restore x (freshXp s c day) _ hx


/-- C5 witness: completing then uncompleting day 20 on the sample state
restores the all-zero streak fields and the 0-XP profile. -/
theorem complete_uncomplete_round_trip_check :
    (uncomplete_habit (complete_habit sampleState sampleClock 20).state
        sampleClock 20).habit.current_streak = sampleState.habit.current_streak
    ∧ (uncomplete_habit (complete_habit sampleState sampleClock 20).state
        sampleClock 20).habit.best_streak = sampleState.habit.best_streak
    ∧ (uncomplete_habit (complete_habit sampleState sampleClock 20).state
        sampleClock 20).habit.last_completed_on = sampleState.habit.last_completed_on
    ∧ (uncomplete_habit (complete_habit sampleState sampleClock 20).state
        sampleClock 20).profile =
      some { experience_points := some 0,
             current_level := some ((progress_from_experience 0).level) } :=
  complete_uncomplete_round_trip sampleState sampleClock 20 0 (some 1)
    (by decide) rfl rfl (by decide) (by decide) (by decide) (by decide)

end DoDo
